import Mathlib

/-!
Verification of the string-similarity core (Rust, `src/wasm/similarity/src/lib.rs`).

Shallow embedding conventions:
* Rust `&str` values are embedded as `List Char`: Lean `Char` is a Unicode scalar
  value, matching Rust `char`, so `s.chars()` is the list itself.
* Rust `str::len` returns the UTF-8 byte length; it is embedded as `byteLen`,
  the sum of the UTF-8 encoded sizes of the scalar values.
* Rust `f64` arithmetic is embedded as exact rational arithmetic over `ℚ`;
  the one partial operation (division, whose zero-denominator case is the
  source of non-finite values such as NaN) is additionally modelled by the
  checked variant `qdivChecked` returning `Option ℚ` with `none` for the
  non-finite outcome.
* `slice::sort_by` is a stable sort in Rust; it is embedded as a stable
  insertion sort using the same descending-similarity ordering.
* `Iterator::max_by` returns the last maximal element in Rust; it is embedded
  as the corresponding left fold.
* The wasm-bindgen / serde marshalling in `find_matches` and `find_best_match`
  is the binding layer; the embedding takes the already-decoded
  `List (List Char)` of candidate words, as the spec's core contract does.
-/

/-- UTF-8 encoded size, in bytes, of one Unicode scalar value: this is Rust's
`char::len_utf8`, so that `byteLen` below agrees with Rust's `str::len`. -/
def utf8Size (c : Char) : Nat :=
  if c.val < 0x80 then 1
  else if c.val < 0x800 then 2
  else if c.val < 0x10000 then 3
  else 4

/-- Byte length of a string (Rust `str::len`): total UTF-8 size of its scalars. -/
def byteLen (s : List Char) : Nat := (s.map utf8Size).sum

/-- Row `i + 1` of the Levenshtein cost matrix of the Rust code, as a function of
the column index, given row `i` as `prev`.  Cell `(i+1, j+1)` is
`min(prev[j+1] + 1, row[j] + 1, prev[j] + cost)` with `cost = 0` iff
`s1[i] = s2[j]`, exactly the fill loop of `levenshtein_distance`. -/
def levRowFn (s1 s2 : List Char) (prev : Nat → Nat) (i : Nat) : Nat → Nat
  | 0 => i + 1
  | j + 1 =>
      min (prev (j + 1) + 1)
        (min (levRowFn s1 s2 prev i j + 1)
          (prev j + (if s1.getD i default = s2.getD j default then 0 else 1)))

/-- The Levenshtein cost matrix of the Rust code: `levMatrix s1 s2 i j` is
`matrix[i][j]`, the cost of transforming the first `i` scalars of `s1` into the
first `j` scalars of `s2`.  Row `0` and column `0` are the identity costs, and
each later row is filled from the previous one by `levRowFn`. -/
def levMatrix (s1 s2 : List Char) : Nat → Nat → Nat
  | 0 => fun j => j
  | i + 1 => levRowFn s1 s2 (levMatrix s1 s2 i) i

/-- Rust `levenshtein_distance`: scalar-value counts, early returns for an empty
side, then the DP matrix evaluated at `(len1, len2)`. -/
def levenshtein_distance (s1 s2 : List Char) : Nat :=
  let len1 := s1.length
  let len2 := s2.length
  if len1 = 0 then len2
  else if len2 = 0 then len1
  else levMatrix s1 s2 len1 len2

/-- Rust `similarity_score`: `1.0 - distance / max_len` where `max_len` is the
larger of the two BYTE lengths (`s1.len().max(s2.len())` in Rust), with the
`max_len == 0` case returning `1.0`.  `f64` is modelled as `ℚ`. -/
def similarity_score (s1 s2 : List Char) : ℚ :=
  let distance := levenshtein_distance s1 s2
  let max_len := max (byteLen s1) (byteLen s2)
  if max_len = 0 then 1
  else 1 - (distance : ℚ) / (max_len : ℚ)

/-- Rust `MatchResult` record. -/
structure MatchResult where
  word : List Char
  distance : Nat
  similarity : ℚ
deriving DecidableEq

/-- The closure building a `MatchResult` from one candidate word, shared by
`find_matches` and `find_best_match` in the Rust source. -/
def toMatchResult (query word : List Char) : MatchResult :=
  { word := word
    distance := levenshtein_distance query word
    similarity := similarity_score query word }

/-- Rust `is_similar`. -/
def is_similar (s1 s2 : List Char) (threshold : ℚ) : Bool :=
  decide (threshold ≤ similarity_score s1 s2)

/-- Rust `calculate_distance` (wasm export wrapper). -/
def calculate_distance (s1 s2 : List Char) : Nat := levenshtein_distance s1 s2

/-- Rust `calculate_similarity` (wasm export wrapper). -/
def calculate_similarity (s1 s2 : List Char) : ℚ := similarity_score s1 s2

/-- Insert one result into a list, before the first element of strictly smaller
similarity.  Together with `sortBySimilarityDesc` this is a stable
descending-similarity sort, the embedding of Rust's stable
`sort_by(|a, b| b.similarity.partial_cmp(&a.similarity).unwrap())`. -/
def insertDesc (x : MatchResult) : List MatchResult → List MatchResult
  | [] => [x]
  | y :: ys => if y.similarity ≤ x.similarity then x :: y :: ys else y :: insertDesc x ys

/-- Stable insertion sort by descending similarity (see `insertDesc`). -/
def sortBySimilarityDesc : List MatchResult → List MatchResult
  | [] => []
  | x :: xs => insertDesc x (sortBySimilarityDesc xs)

/-- Rust `find_matches` after the binding layer has decoded the candidate list:
map each word to its `MatchResult` against `query`, keep those with
`similarity >= threshold`, sort by similarity descending (stable). -/
def find_matches (query : List Char) (words : List (List Char)) (threshold : ℚ) :
    List MatchResult :=
  sortBySimilarityDesc
    ((words.map (toMatchResult query)).filter (fun m => decide (threshold ≤ m.similarity)))

/-- One step of Rust `Iterator::max_by` on similarity: `cmp::max_by` keeps the
first argument only when the second compares strictly less, so ties keep the
LATER element. -/
def maxByStep (acc y : MatchResult) : MatchResult :=
  if y.similarity < acc.similarity then acc else y

/-- Rust `Iterator::max_by` on similarity: a left fold of `maxByStep`, hence
returning the LAST maximal element. -/
def maxBySimilarity : List MatchResult → Option MatchResult
  | [] => none
  | x :: xs => some (xs.foldl maxByStep x)

/-- Rust `find_best_match` after the binding layer has decoded the candidate
list: `None` for an empty list, otherwise the `max_by` of the mapped results. -/
def find_best_match (query : List Char) (words : List (List Char)) : Option MatchResult :=
  if words.isEmpty then none
  else maxBySimilarity (words.map (toMatchResult query))

/-- Checked division on `ℚ`, modelling that an `f64` division by zero is the
only source of a non-finite value (NaN or an infinity) in `similarity_score`:
`none` stands for that non-finite outcome. -/
def qdivChecked (x y : ℚ) : Option ℚ := if y = 0 then none else some (x / y)

/-- Subtraction from a constant, propagating the non-finite marker. -/
def qsubChecked (x : ℚ) (y : Option ℚ) : Option ℚ := y.map (fun z => x - z)

/-- Rust `similarity_score` with the `f64` division modelled as checked:
`none` would mean the similarity value is non-finite (NaN after comparison). -/
def similarity_score_chk (s1 s2 : List Char) : Option ℚ :=
  let distance := levenshtein_distance s1 s2
  let max_len := max (byteLen s1) (byteLen s2)
  if max_len = 0 then some 1
  else qsubChecked 1 (qdivChecked (distance : ℚ) (max_len : ℚ))

/-- Rust `f64::partial_cmp` on the checked similarity values: `none` (the case
`unwrap` would panic on) exactly when one side is non-finite/NaN. -/
def partialCmpQ (x y : Option ℚ) : Option Ordering :=
  match x, y with
  | some a, some b =>
      some (if a < b then Ordering.lt else if a = b then Ordering.eq else Ordering.gt)
  | _, _ => none

/-- Reference recursive Levenshtein on the tails of the two lists, used to
reason about `levMatrix`: helper for the `cons` case, structurally recursive in
the second list. -/
def levRecAux (f : List Char → Nat) (a : Char) (s : List Char) : List Char → Nat
  | [] => s.length + 1
  | b :: t =>
      min (f (b :: t) + 1)
        (min (levRecAux f a s t + 1) (f t + (if a = b then 0 else 1)))

/-- Reference recursive Levenshtein distance on lists, consuming from the
front; `levMatrix s1 s2 i j` equals `levRec` on the reversed `i`- and
`j`-prefixes (proved below). -/
def levRec : List Char → List Char → Nat
  | [], t => t.length
  | a :: s, t => levRecAux (levRec s) a s t

/-! Basic equations and properties of the reference recursion `levRec`. -/

theorem levRec_nil_left (t : List Char) : levRec [] t = t.length := rfl

theorem levRec_nil_right (s : List Char) : levRec s [] = s.length := by
  cases s <;> rfl

theorem levRec_cons_cons (a b : Char) (s t : List Char) :
    levRec (a :: s) (b :: t) =
      min (levRec s (b :: t) + 1)
        (min (levRec (a :: s) t + 1) (levRec s t + (if a = b then 0 else 1))) := rfl

theorem levRec_symm (s t : List Char) : levRec s t = levRec t s := by
  induction s generalizing t with
  | nil => rw [levRec_nil_left, levRec_nil_right]
  | cons a s ihs =>
    induction t with
    | nil => rw [levRec_nil_left, levRec_nil_right]
    | cons b t iht =>
      rw [levRec_cons_cons, levRec_cons_cons, iht, ihs (b :: t), ihs t]
      have hc : (if a = b then 0 else 1) = (if b = a then 0 else 1) := by
        by_cases h : a = b
        · subst h; rfl
        · rw [if_neg h, if_neg (Ne.symm h)]
      rw [hc, min_left_comm]

theorem levRec_eq_zero_iff (s t : List Char) : levRec s t = 0 ↔ s = t := by
  induction s generalizing t with
  | nil =>
    rw [levRec_nil_left]
    cases t <;> simp
  | cons a s ihs =>
    cases t with
    | nil => simp [levRec_nil_right]
    | cons b t =>
      rw [levRec_cons_cons]
      constructor
      · intro h
        by_cases hab : a = b
        · subst hab
          simp only [if_pos rfl] at h
          have h0 : levRec s t = 0 := by omega
          rw [(ihs t).mp h0]
        · rw [if_neg hab] at h
          omega
      · intro h
        cases h
        simp [(ihs s).mpr rfl]

theorem levRec_le_max (s t : List Char) : levRec s t ≤ max s.length t.length := by
  induction s generalizing t with
  | nil => rw [levRec_nil_left]; exact le_max_right _ _
  | cons a s ihs =>
    cases t with
    | nil => rw [levRec_nil_right]; exact le_max_left _ _
    | cons b t =>
      rw [levRec_cons_cons]
      have h3 : levRec s t + (if a = b then 0 else 1) ≤ max s.length t.length + 1 := by
        have := ihs t
        by_cases hab : a = b <;> simp [hab] <;> omega
      have : min (levRec (a :: s) t + 1) (levRec s t + (if a = b then 0 else 1)) ≤
          max s.length t.length + 1 := le_trans (min_le_right _ _) h3
      have hmin : min (levRec s (b :: t) + 1)
          (min (levRec (a :: s) t + 1) (levRec s t + (if a = b then 0 else 1))) ≤
          max s.length t.length + 1 := le_trans (min_le_right _ _) this
      refine hmin.trans ?_
      simp only [List.length_cons]
      omega

/-! Bridge: the DP matrix of the Rust code computes `levRec` on the reversed
prefixes of the two strings. -/

theorem levMatrix_zero_left (s1 s2 : List Char) (j : Nat) : levMatrix s1 s2 0 j = j := rfl

theorem levMatrix_zero_right (s1 s2 : List Char) (i : Nat) :
    levMatrix s1 s2 (i + 1) 0 = i + 1 := rfl

theorem levMatrix_succ_succ (s1 s2 : List Char) (i j : Nat) :
    levMatrix s1 s2 (i + 1) (j + 1) =
      min (levMatrix s1 s2 i (j + 1) + 1)
        (min (levMatrix s1 s2 (i + 1) j + 1)
          (levMatrix s1 s2 i j + (if s1.getD i default = s2.getD j default then 0 else 1))) :=
  rfl

theorem take_succ_reverse (l : List Char) (i : Nat) (h : i < l.length) :
    (l.take (i + 1)).reverse = l.getD i default :: (l.take i).reverse := by
  rw [List.take_succ]
  have hg : l[i]? = some (l.getD i default) := by
    simp [List.getElem?_eq_getElem h, List.getD_eq_getElem?_getD]
  rw [hg]
  simp

theorem levMatrix_eq_levRec (s1 s2 : List Char) :
    ∀ i j, i ≤ s1.length → j ≤ s2.length →
      levMatrix s1 s2 i j = levRec ((s1.take i).reverse) ((s2.take j).reverse) := by
  intro i
  induction i with
  | zero =>
    intro j _ hj
    rw [levMatrix_zero_left, List.take_zero, List.reverse_nil, levRec_nil_left,
      List.length_reverse, List.length_take]
    omega
  | succ i ihi =>
    intro j hi hj
    induction j with
    | zero =>
      rw [levMatrix_zero_right, List.take_zero, List.reverse_nil, levRec_nil_right,
        List.length_reverse, List.length_take]
      omega
    | succ j ihj =>
      rw [levMatrix_succ_succ,
        take_succ_reverse s1 i (by omega), take_succ_reverse s2 j (by omega),
        levRec_cons_cons,
        ← take_succ_reverse s1 i (by omega), ← take_succ_reverse s2 j (by omega),
        ihi (j + 1) (by omega) hj, ihi j (by omega) (by omega), ihj (by omega)]

theorem lev_eq_levRec (s1 s2 : List Char) :
    levenshtein_distance s1 s2 = levRec s1.reverse s2.reverse := by
  unfold levenshtein_distance
  by_cases h1 : s1.length = 0
  · have hs1 : s1 = [] := List.length_eq_zero.mp h1
    subst hs1
    simp [levRec_nil_left]
  · by_cases h2 : s2.length = 0
    · have hs2 : s2 = [] := List.length_eq_zero.mp h2
      subst hs2
      simp [h1, levRec_nil_right]
    · simp only [h1, h2, if_false]
      rw [levMatrix_eq_levRec s1 s2 s1.length s2.length le_rfl le_rfl,
        List.take_length, List.take_length]

/-- Edit scripts: `Edits s t n` holds when `s` can be rewritten into `t` by a
sequence of per-position operations of total cost `n` (copy free, substitution,
insertion and deletion cost `1`).  `levRec` is the minimum such cost. -/
inductive Edits : List Char → List Char → Nat → Prop
  | nil : Edits [] [] 0
  | copy (a : Char) {s t : List Char} {n : Nat} : Edits s t n → Edits (a :: s) (a :: t) n
  | subst (a b : Char) {s t : List Char} {n : Nat} : Edits s t n → Edits (a :: s) (b :: t) (n + 1)
  | ins (b : Char) {s t : List Char} {n : Nat} : Edits s t n → Edits s (b :: t) (n + 1)
  | del (a : Char) {s t : List Char} {n : Nat} : Edits s t n → Edits (a :: s) t (n + 1)

theorem edits_nil_left (t : List Char) : Edits [] t t.length := by
  induction t with
  | nil => exact Edits.nil
  | cons b t ih => exact Edits.ins b ih

theorem edits_nil_right (s : List Char) : Edits s [] s.length := by
  induction s with
  | nil => exact Edits.nil
  | cons a s ih => exact Edits.del a ih

theorem edits_achieve (s t : List Char) : Edits s t (levRec s t) := by
  induction s generalizing t with
  | nil => rw [levRec_nil_left]; exact edits_nil_left t
  | cons a s ihs =>
    induction t with
    | nil => rw [levRec_nil_right]; exact edits_nil_right (a :: s)
    | cons b t iht =>
      rw [levRec_cons_cons]
      rcases min_cases (levRec s (b :: t) + 1)
        (min (levRec (a :: s) t + 1) (levRec s t + (if a = b then 0 else 1))) with
        ⟨hmin, -⟩ | ⟨hmin, -⟩
      · rw [hmin]
        exact Edits.del a (ihs (b :: t))
      · rw [hmin]
        rcases min_cases (levRec (a :: s) t + 1) (levRec s t + (if a = b then 0 else 1)) with
          ⟨hmin2, -⟩ | ⟨hmin2, -⟩
        · rw [hmin2]
          exact Edits.ins b iht
        · rw [hmin2]
          by_cases hab : a = b
          · subst hab
            rw [if_pos rfl, Nat.add_zero]
            exact Edits.copy a (ihs t)
          · rw [if_neg hab]
            exact Edits.subst a b (ihs t)

theorem edits_le {s t : List Char} {n : Nat} (h : Edits s t n) : levRec s t ≤ n := by
  induction h with
  | nil => exact le_rfl
  | copy a h ih =>
    rw [levRec_cons_cons]
    refine le_trans (le_trans (min_le_right _ _) (min_le_right _ _)) ?_
    simp only [if_pos rfl, Nat.add_zero]
    exact ih
  | subst a b h ih =>
    rw [levRec_cons_cons]
    refine le_trans (le_trans (min_le_right _ _) (min_le_right _ _)) ?_
    by_cases hab : a = b <;> simp [hab] <;> omega
  | ins b h ih =>
    rename_i s t n
    cases s with
    | nil =>
      rw [levRec_nil_left]
      rw [levRec_nil_left] at ih
      simp only [List.length_cons]
      omega
    | cons a s2 =>
      rw [levRec_cons_cons]
      refine le_trans (le_trans (min_le_right _ _) (min_le_left _ _)) ?_
      omega
  | del a h ih =>
    rename_i s t n
    cases t with
    | nil =>
      rw [levRec_nil_right]
      rw [levRec_nil_right] at ih
      simp only [List.length_cons]
      omega
    | cons b t2 =>
      rw [levRec_cons_cons]
      refine le_trans (min_le_left _ _) ?_
      omega

theorem edits_comp :
    ∀ N s t u m n, s.length + t.length + u.length ≤ N →
      Edits s t m → Edits t u n → ∃ k, k ≤ m + n ∧ Edits s u k := by
  intro N
  induction N with
  | zero =>
    intro s t u m n hN d1 d2
    have hs : s = [] := by cases s <;> simp_all
    have ht : t = [] := by cases t <;> simp_all
    have hu : u = [] := by cases u <;> simp_all
    subst hs; subst ht; subst hu
    exact ⟨m, by omega, d1⟩
  | succ N ih =>
    intro s t u m n hN d1 d2
    cases d2 with
    | nil => exact ⟨m, by omega, d1⟩
    | ins b d2x =>
      obtain ⟨k, hk, e⟩ := ih s t _ m _
        (by simp only [List.length_cons] at hN ⊢; omega) d1 d2x
      exact ⟨k + 1, by omega, Edits.ins b e⟩
    | copy b d2x =>
      cases d1 with
      | copy a d1x =>
        obtain ⟨k, hk, e⟩ := ih _ _ _ _ _
          (by simp only [List.length_cons] at hN ⊢; omega) d1x d2x
        exact ⟨k, by omega, Edits.copy b e⟩
      | subst a b2 d1x =>
        obtain ⟨k, hk, e⟩ := ih _ _ _ _ _
          (by simp only [List.length_cons] at hN ⊢; omega) d1x d2x
        exact ⟨k + 1, by omega, Edits.subst a b e⟩
      | ins b2 d1x =>
        obtain ⟨k, hk, e⟩ := ih _ _ _ _ _
          (by simp only [List.length_cons] at hN ⊢; omega) d1x d2x
        exact ⟨k + 1, by omega, Edits.ins b e⟩
      | del a d1x =>
        obtain ⟨k, hk, e⟩ := ih _ _ _ _ _
          (by simp only [List.length_cons] at hN ⊢; omega) d1x (Edits.copy b d2x)
        exact ⟨k + 1, by omega, Edits.del a e⟩
    | subst b c d2x =>
      cases d1 with
      | copy a d1x =>
        obtain ⟨k, hk, e⟩ := ih _ _ _ _ _
          (by simp only [List.length_cons] at hN ⊢; omega) d1x d2x
        exact ⟨k + 1, by omega, Edits.subst b c e⟩
      | subst a b2 d1x =>
        obtain ⟨k, hk, e⟩ := ih _ _ _ _ _
          (by simp only [List.length_cons] at hN ⊢; omega) d1x d2x
        exact ⟨k + 1, by omega, Edits.subst a c e⟩
      | ins b2 d1x =>
        obtain ⟨k, hk, e⟩ := ih _ _ _ _ _
          (by simp only [List.length_cons] at hN ⊢; omega) d1x d2x
        exact ⟨k + 1, by omega, Edits.ins c e⟩
      | del a d1x =>
        obtain ⟨k, hk, e⟩ := ih _ _ _ _ _
          (by simp only [List.length_cons] at hN ⊢; omega) d1x (Edits.subst b c d2x)
        exact ⟨k + 1, by omega, Edits.del a e⟩
    | del b d2x =>
      cases d1 with
      | copy a d1x =>
        obtain ⟨k, hk, e⟩ := ih _ _ _ _ _
          (by simp only [List.length_cons] at hN ⊢; omega) d1x d2x
        exact ⟨k + 1, by omega, Edits.del b e⟩
      | subst a b2 d1x =>
        obtain ⟨k, hk, e⟩ := ih _ _ _ _ _
          (by simp only [List.length_cons] at hN ⊢; omega) d1x d2x
        exact ⟨k + 1, by omega, Edits.del a e⟩
      | ins b2 d1x =>
        obtain ⟨k, hk, e⟩ := ih _ _ _ _ _
          (by simp only [List.length_cons] at hN ⊢; omega) d1x d2x
        exact ⟨k, by omega, e⟩
      | del a d1x =>
        obtain ⟨k, hk, e⟩ := ih _ _ _ _ _
          (by simp only [List.length_cons] at hN ⊢; omega) d1x (Edits.del b d2x)
        exact ⟨k + 1, by omega, Edits.del a e⟩

theorem levRec_triangle (s t u : List Char) : levRec s u ≤ levRec s t + levRec t u := by
  obtain ⟨k, hk, e⟩ := edits_comp (s.length + t.length + u.length) s t u _ _ le_rfl
    (edits_achieve s t) (edits_achieve t u)
  exact (edits_le e).trans hk

/-! Byte lengths versus scalar counts, and the distance bound. -/

theorem one_le_utf8Size (c : Char) : 1 ≤ utf8Size c := by
  unfold utf8Size
  split <;> simp_all
  split <;> simp_all
  split <;> simp_all

theorem length_le_byteLen (s : List Char) : s.length ≤ byteLen s := by
  induction s with
  | nil => simp [byteLen]
  | cons c s ih =>
    have := one_le_utf8Size c
    simp only [byteLen, List.map_cons, List.sum_cons, List.length_cons]
    simp only [byteLen] at ih
    omega

theorem lev_le_max_length (s1 s2 : List Char) :
    levenshtein_distance s1 s2 ≤ max s1.length s2.length := by
  rw [lev_eq_levRec]
  have := levRec_le_max s1.reverse s2.reverse
  simpa using this

theorem lev_le_max_byteLen (s1 s2 : List Char) :
    levenshtein_distance s1 s2 ≤ max (byteLen s1) (byteLen s2) := by
  refine (lev_le_max_length s1 s2).trans ?_
  have h1 := length_le_byteLen s1
  have h2 := length_le_byteLen s2
  omega

/-- C2: the similarity score is always in the closed interval `[0, 1]`, because
the Levenshtein distance never exceeds the larger input length used as the
normalization denominator. -/
theorem one_sub_div_mem_unit (d m : ℕ) (hm : m ≠ 0) (hd : d ≤ m) :
    0 ≤ 1 - (d : ℚ) / (m : ℚ) ∧ 1 - (d : ℚ) / (m : ℚ) ≤ 1 := by
  have hmq : (0 : ℚ) < (m : ℚ) := by exact_mod_cast Nat.pos_of_ne_zero hm
  have hdq : (d : ℚ) ≤ (m : ℚ) := by exact_mod_cast hd
  have hdiv1 : (d : ℚ) / (m : ℚ) ≤ 1 := (div_le_one hmq).mpr hdq
  have hdiv0 : 0 ≤ (d : ℚ) / (m : ℚ) := div_nonneg (by positivity) hmq.le
  constructor <;> linarith

theorem similarity_score_range (s1 s2 : List Char) :
    0 ≤ similarity_score s1 s2 ∧ similarity_score s1 s2 ≤ 1 ∧
      levenshtein_distance s1 s2 ≤ max (byteLen s1) (byteLen s2) := by
  unfold similarity_score
  by_cases h : max (byteLen s1) (byteLen s2) = 0
  · simp only [h, if_pos rfl]
    exact ⟨by norm_num, by norm_num, h ▸ lev_le_max_byteLen s1 s2⟩
  · simp only [h, if_false]
    obtain ⟨h0, h1⟩ :=
      one_sub_div_mem_unit (levenshtein_distance s1 s2) (max (byteLen s1) (byteLen s2)) h
        (lev_le_max_byteLen s1 s2)
    exact ⟨h0, h1, lev_le_max_byteLen s1 s2⟩

/-- C6: the Levenshtein distance of the code is symmetric. -/
theorem levenshtein_distance_symm (s1 s2 : List Char) :
    levenshtein_distance s1 s2 = levenshtein_distance s2 s1 := by
  rw [lev_eq_levRec, lev_eq_levRec, levRec_symm]

/-- C7: the Levenshtein distance of the code is zero exactly when the two
strings are equal as sequences of Unicode scalar values. -/
theorem levenshtein_distance_eq_zero_iff (s1 s2 : List Char) :
    levenshtein_distance s1 s2 = 0 ↔ s1 = s2 := by
  rw [lev_eq_levRec, levRec_eq_zero_iff, List.reverse_inj]

/-- C8: the Levenshtein distance of the code satisfies the triangle
inequality. -/
theorem levenshtein_distance_triangle (a b c : List Char) :
    levenshtein_distance a c ≤ levenshtein_distance a b + levenshtein_distance b c := by
  rw [lev_eq_levRec, lev_eq_levRec, lev_eq_levRec]
  exact levRec_triangle a.reverse b.reverse c.reverse

/-- C9: the similarity of any string with itself is exactly `1`, including the
empty string, whose case is the special zero-length branch of the code. -/
theorem similarity_score_self (s : List Char) : similarity_score s s = 1 := by
  have h0 : levenshtein_distance s s = 0 := by
    rw [lev_eq_levRec]
    exact (levRec_eq_zero_iff _ _).mpr rfl
  simp [similarity_score, h0]

/-- C10: the similarity value is never non-finite (in particular never NaN):
the checked computation, in which a zero denominator produces the non-finite
marker `none`, always returns the plain score, so the partial comparison used
by the `sort_by` comparator of `find_matches` and the `max_by` comparator of
`find_best_match` is defined (is `some _`) on every pair of similarity values,
and the `unwrap` on it cannot panic. -/
theorem similarity_score_not_nan (s1 s2 t1 t2 : List Char) :
    similarity_score_chk s1 s2 = some (similarity_score s1 s2) ∧
      partialCmpQ (similarity_score_chk s1 s2) (similarity_score_chk t1 t2) =
        some (if similarity_score s1 s2 < similarity_score t1 t2 then Ordering.lt
          else if similarity_score s1 s2 = similarity_score t1 t2 then Ordering.eq
          else Ordering.gt) := by
  have key : ∀ u1 u2 : List Char,
      similarity_score_chk u1 u2 = some (similarity_score u1 u2) := by
    intro u1 u2
    unfold similarity_score_chk similarity_score
    by_cases h : max (byteLen u1) (byteLen u2) = 0
    · simp [h]
    · have hq : ((byteLen u1 : ℚ) ⊔ (byteLen u2 : ℚ)) ≠ 0 := by
        have h2 : ((max (byteLen u1) (byteLen u2) : ℕ) : ℚ) ≠ 0 := by exact_mod_cast h
        simpa [Nat.cast_max] using h2
      simp [h, qsubChecked, qdivChecked, hq]
  refine ⟨key s1 s2, ?_⟩
  rw [key s1 s2, key t1 t2]
  rfl

/-- C5: `find_best_match` on an empty candidate list returns absence (`none`),
not an error. -/
theorem find_best_match_empty (query : List Char) : find_best_match query [] = none := rfl

/-- C1 counterexample: the code normalizes by the larger BYTE length, not the
larger scalar-value count.  For the distinct single-character strings `"é"`
(two UTF-8 bytes) and `"a"` (one byte) the distance is `1` but the code's
similarity is `1 - 1/2 = 1/2`, not the `0` the claim requires; normalizing by
scalar-value counts, as the claim states, would give `0`. -/
theorem similarity_score_multibyte_cex :
    ('é' ≠ 'a') ∧
      levenshtein_distance ['é'] ['a'] = 1 ∧
      similarity_score ['é'] ['a'] = 1 / 2 ∧
      similarity_score ['é'] ['a'] ≠ 0 ∧
      1 - (levenshtein_distance ['é'] ['a'] : ℚ) /
          (max (List.length ['é']) (List.length ['a']) : ℚ) = 0 := by
  have hd : levenshtein_distance ['é'] ['a'] = 1 := by decide
  have hb1 : byteLen ['é'] = 2 := by decide
  have hb2 : byteLen ['a'] = 1 := by decide
  refine ⟨by decide, hd, ?_, ?_, ?_⟩
  · simp [similarity_score, hd, hb1, hb2]
    norm_num
  · simp [similarity_score, hd, hb1, hb2]
    norm_num
  · rw [hd]
    norm_num

/-- C1 (amended): the code normalizes by the larger UTF-8 BYTE length, not the
larger scalar-value count: when the denominator is nonzero the similarity is
`1 - distance / max(byteLen a, byteLen b)`.  Consequently two distinct
single-character strings have similarity `1 - 1/max(utf8Size a, utf8Size b)`,
which is `0` exactly when both characters are single-byte (ASCII); multi-byte
characters make it positive. -/
theorem similarity_score_byte_normalized (s1 s2 : List Char) (a b : Char) (hab : a ≠ b) :
    (max (byteLen s1) (byteLen s2) ≠ 0 →
      similarity_score s1 s2 =
        1 - (levenshtein_distance s1 s2 : ℚ) / ((max (byteLen s1) (byteLen s2) : ℕ) : ℚ)) ∧
    similarity_score [a] [b] = 1 - 1 / ((max (utf8Size a) (utf8Size b) : ℕ) : ℚ) ∧
    (similarity_score [a] [b] = 0 ↔ utf8Size a = 1 ∧ utf8Size b = 1) := by
  have hd : levenshtein_distance [a] [b] = 1 := by
    have h11 := levMatrix_succ_succ [a] [b] 0 0
    simp only [levMatrix_zero_left, levMatrix_zero_right, List.getD_cons_zero,
      if_neg hab] at h11
    unfold levenshtein_distance
    simp only [List.length_cons, List.length_nil]
    norm_num [h11]
  have hba : byteLen [a] = utf8Size a := by simp [byteLen]
  have hbb : byteLen [b] = utf8Size b := by simp [byteLen]
  have hne : max (utf8Size a) (utf8Size b) ≠ 0 := by
    have := one_le_utf8Size a
    omega
  have hsecond : similarity_score [a] [b] = 1 - 1 / ((max (utf8Size a) (utf8Size b) : ℕ) : ℚ) := by
    simp only [similarity_score, hd, hba, hbb, if_neg hne, Nat.cast_one]
  refine ⟨?_, hsecond, ?_⟩
  · intro hne2
    simp only [similarity_score, if_neg hne2]
  · have hmq : (0 : ℚ) < ((max (utf8Size a) (utf8Size b) : ℕ) : ℚ) := by
      exact_mod_cast Nat.pos_of_ne_zero hne
    have hiff : max (utf8Size a) (utf8Size b) = 1 ↔ utf8Size a = 1 ∧ utf8Size b = 1 := by
      have h1 := one_le_utf8Size a
      have h2 := one_le_utf8Size b
      omega
    rw [hsecond, sub_eq_zero, eq_comm, div_eq_one_iff_eq (ne_of_gt hmq), eq_comm,
      Nat.cast_eq_one]
    exact hiff

/-- C1 amended-claim witness at `s1 = "a"`, `s2 = ""`, `a = 'a'`, `b = 'é'`. -/
theorem similarity_score_byte_normalized_witness :
    (max (byteLen ['a']) (byteLen []) ≠ 0 →
      similarity_score ['a'] [] =
        1 - (levenshtein_distance ['a'] [] : ℚ) / ((max (byteLen ['a']) (byteLen []) : ℕ) : ℚ)) ∧
    similarity_score ['a'] ['é'] = 1 - 1 / ((max (utf8Size 'a') (utf8Size 'é') : ℕ) : ℚ) ∧
    (similarity_score ['a'] ['é'] = 0 ↔ utf8Size 'a' = 1 ∧ utf8Size 'é' = 1) :=
  similarity_score_byte_normalized ['a'] [] 'a' 'é' (by decide)

/-! Properties of the stable insertion sort used for `find_matches`. -/

theorem insertDesc_split (x : MatchResult) (l : List MatchResult) :
    ∃ l1 l2, l = l1 ++ l2 ∧ insertDesc x l = l1 ++ x :: l2 ∧
      ∀ y ∈ l1, x.similarity < y.similarity := by
  induction l with
  | nil => exact ⟨[], [], rfl, rfl, by simp⟩
  | cons y ys ih =>
    by_cases h : y.similarity ≤ x.similarity
    · exact ⟨[], y :: ys, rfl, by simp [insertDesc, h], by simp⟩
    · obtain ⟨l1, l2, he, hi, hlt⟩ := ih
      refine ⟨y :: l1, l2, by rw [List.cons_append, ← he], ?_, ?_⟩
      · simp [insertDesc, h, hi]
      · intro z hz
        rcases List.mem_cons.mp hz with rfl | hz2
        · exact not_le.mp h
        · exact hlt z hz2

theorem insertDesc_perm (x : MatchResult) (l : List MatchResult) :
    List.Perm (insertDesc x l) (x :: l) := by
  obtain ⟨l1, l2, he, hi, -⟩ := insertDesc_split x l
  rw [hi, he]
  exact List.perm_middle

theorem sortDesc_perm (l : List MatchResult) :
    List.Perm (sortBySimilarityDesc l) l := by
  induction l with
  | nil => exact List.Perm.refl []
  | cons x xs ih => exact (insertDesc_perm x _).trans (ih.cons x)

theorem insertDesc_pairwise (x : MatchResult) (l : List MatchResult)
    (h : List.Pairwise (fun a b => b.similarity ≤ a.similarity) l) :
    List.Pairwise (fun a b => b.similarity ≤ a.similarity) (insertDesc x l) := by
  induction l with
  | nil => simp [insertDesc]
  | cons y ys ih =>
    obtain ⟨hy, hys⟩ := List.pairwise_cons.mp h
    by_cases hc : y.similarity ≤ x.similarity
    · simp only [insertDesc, if_pos hc]
      refine List.Pairwise.cons ?_ h
      intro z hz
      rcases List.mem_cons.mp hz with rfl | hz2
      · exact hc
      · exact (hy z hz2).trans hc
    · simp only [insertDesc, if_neg hc]
      refine List.Pairwise.cons ?_ (ih hys)
      intro z hz
      have hz2 : z ∈ x :: ys := (insertDesc_perm x ys).mem_iff.mp hz
      rcases List.mem_cons.mp hz2 with rfl | hz3
      · exact le_of_lt (not_le.mp hc)
      · exact hy z hz3

theorem sortDesc_pairwise (l : List MatchResult) :
    List.Pairwise (fun a b => b.similarity ≤ a.similarity) (sortBySimilarityDesc l) := by
  induction l with
  | nil => simp [sortBySimilarityDesc]
  | cons x xs ih => exact insertDesc_pairwise x _ ih

theorem insertDesc_filter_stable (x : MatchResult) (l : List MatchResult) (v : ℚ) :
    (insertDesc x l).filter (fun m => decide (m.similarity = v)) =
      if x.similarity = v
        then x :: l.filter (fun m => decide (m.similarity = v))
        else l.filter (fun m => decide (m.similarity = v)) := by
  obtain ⟨l1, l2, he, hi, hlt⟩ := insertDesc_split x l
  rw [hi, he, List.filter_append, List.filter_append]
  by_cases hx : x.similarity = v
  · rw [if_pos hx]
    have h1 : l1.filter (fun m => decide (m.similarity = v)) = [] := by
      rw [List.filter_eq_nil_iff]
      intro y hy
      have hlt2 := hlt y hy
      simp only [decide_eq_true_eq]
      intro hyv
      rw [hx] at hlt2
      rw [hyv] at hlt2
      exact lt_irrefl v hlt2
    rw [h1, List.nil_append, List.nil_append, List.filter_cons]
    simp [hx]
  · rw [if_neg hx, List.filter_cons]
    simp [hx]

theorem sortDesc_filter_stable (l : List MatchResult) (v : ℚ) :
    (sortBySimilarityDesc l).filter (fun m => decide (m.similarity = v)) =
      l.filter (fun m => decide (m.similarity = v)) := by
  induction l with
  | nil => rfl
  | cons x xs ih =>
    simp only [sortBySimilarityDesc]
    rw [insertDesc_filter_stable]
    by_cases hx : x.similarity = v
    · rw [if_pos hx, ih, List.filter_cons]
      simp [hx]
    · rw [if_neg hx, ih, List.filter_cons]
      simp [hx]

/-- C3: `find_matches` returns exactly the candidates whose similarity reaches
the threshold (a permutation of the filtered mapped list), ordered by
similarity descending, and stably: for every similarity value `v`, the
subsequence of results with similarity `v` is the subsequence of the filtered
input with similarity `v`, i.e. ties keep their input order. -/
theorem find_matches_spec (query : List Char) (words : List (List Char)) (threshold : ℚ) :
    List.Perm (find_matches query words threshold)
        ((words.map (toMatchResult query)).filter (fun m => decide (threshold ≤ m.similarity))) ∧
      List.Pairwise (fun a b => b.similarity ≤ a.similarity)
        (find_matches query words threshold) ∧
      ∀ v : ℚ,
        (find_matches query words threshold).filter (fun m => decide (m.similarity = v)) =
          ((words.map (toMatchResult query)).filter
              (fun m => decide (threshold ≤ m.similarity))).filter
            (fun m => decide (m.similarity = v)) :=
  ⟨sortDesc_perm _, sortDesc_pairwise _, fun v => sortDesc_filter_stable _ v⟩

/-! Properties of the `max_by` fold used for `find_best_match`. -/

theorem foldl_maxByStep_split (x : MatchResult) (xs : List MatchResult) :
    ∃ l1 l2, x :: xs = l1 ++ (xs.foldl maxByStep x) :: l2 ∧
      (∀ y ∈ l1, y.similarity ≤ (xs.foldl maxByStep x).similarity) ∧
      (∀ y ∈ l2, y.similarity < (xs.foldl maxByStep x).similarity) := by
  have hstep : ∀ acc z : MatchResult,
      maxByStep acc z = if z.similarity < acc.similarity then acc else z := fun _ _ => rfl
  induction xs using List.reverseRecOn with
  | nil => exact ⟨[], [], rfl, by simp, by simp⟩
  | append_singleton ys y ih =>
    obtain ⟨l1, l2, he, hle, hlt⟩ := ih
    rw [List.foldl_append, List.foldl_cons, List.foldl_nil, hstep]
    by_cases hc : y.similarity < (List.foldl maxByStep x ys).similarity
    · rw [if_pos hc]
      refine ⟨l1, l2 ++ [y], ?_, hle, ?_⟩
      · have h2 : x :: (ys ++ [y]) = (x :: ys) ++ [y] := rfl
        rw [h2, he, List.append_assoc, List.cons_append]
      · intro z hz
        rcases List.mem_append.mp hz with hz1 | hz1
        · exact hlt z hz1
        · have hzy : z = y := List.mem_singleton.mp hz1
          rw [hzy]
          exact hc
    · rw [if_neg hc]
      refine ⟨x :: ys, [], by simp, ?_, by simp⟩
      intro z hz
      have hb : (List.foldl maxByStep x ys).similarity ≤ y.similarity := not_lt.mp hc
      rw [he] at hz
      rcases List.mem_append.mp hz with hz1 | hz1
      · exact (hle z hz1).trans hb
      · rcases List.mem_cons.mp hz1 with rfl | hz2
        · exact hb
        · exact ((hlt z hz2).le).trans hb

/-- C4 counterexample: with query `"aa"` and candidates `["ab", "ba"]`, both
candidates have the same (maximal) similarity, and the code returns the LAST
one, `"ba"`, not the first-in-input-order candidate `"ab"` the claim
requires. -/
theorem find_best_match_tie_cex :
    (find_best_match ['a', 'a'] [['a', 'b'], ['b', 'a']]).map MatchResult.word =
        some ['b', 'a'] ∧
      similarity_score ['a', 'a'] ['a', 'b'] = similarity_score ['a', 'a'] ['b', 'a'] ∧
      (['b', 'a'] : List Char) ≠ ['a', 'b'] := by
  have h1 : levenshtein_distance ['a', 'a'] ['a', 'b'] = 1 := by decide
  have h2 : levenshtein_distance ['a', 'a'] ['b', 'a'] = 1 := by decide
  have hb0 : byteLen ['a', 'a'] = 2 := by decide
  have hb1 : byteLen ['a', 'b'] = 2 := by decide
  have hb2 : byteLen ['b', 'a'] = 2 := by decide
  have hs1 : similarity_score ['a', 'a'] ['a', 'b'] = 1 / 2 := by
    simp [similarity_score, h1, hb0, hb1]
    norm_num
  have hs2 : similarity_score ['a', 'a'] ['b', 'a'] = 1 / 2 := by
    simp [similarity_score, h2, hb0, hb2]
    norm_num
  refine ⟨?_, hs1.trans hs2.symm, by decide⟩
  simp [find_best_match, maxBySimilarity, maxByStep, toMatchResult, hs1, hs2]

/-- C4 (amended): for a non-empty candidate list, `find_best_match` returns a
result of maximal similarity, scanning in input order, and on ties it returns
the LAST maximal candidate: every mapped result before it is `≤` and every one
after it is strictly `<` in similarity. -/
theorem find_best_match_last_max (query : List Char) (words : List (List Char))
    (h : words ≠ []) :
    ∃ r l1 l2, find_best_match query words = some r ∧
      words.map (toMatchResult query) = l1 ++ r :: l2 ∧
      (∀ y ∈ l1, y.similarity ≤ r.similarity) ∧
      (∀ y ∈ l2, y.similarity < r.similarity) := by
  cases words with
  | nil => exact absurd rfl h
  | cons w ws =>
    obtain ⟨l1, l2, he, hle, hlt⟩ :=
      foldl_maxByStep_split (toMatchResult query w) (ws.map (toMatchResult query))
    refine ⟨(ws.map (toMatchResult query)).foldl maxByStep (toMatchResult query w),
      l1, l2, ?_, ?_, hle, hlt⟩
    · simp [find_best_match, maxBySimilarity]
    · rw [List.map_cons]
      exact he

/-- C4 amended-claim witness at query `"a"`, candidates `["b", "a"]`. -/
theorem find_best_match_last_max_witness :
    ∃ r l1 l2, find_best_match ['a'] [['b'], ['a']] = some r ∧
      [['b'], ['a']].map (toMatchResult ['a']) = l1 ++ r :: l2 ∧
      (∀ y ∈ l1, y.similarity ≤ r.similarity) ∧
      (∀ y ∈ l2, y.similarity < r.similarity) :=
  find_best_match_last_max ['a'] [['b'], ['a']] (List.cons_ne_nil _ _)

example : levenshtein_distance "kitten".data "sitting".data = 3 := by decide
example : levenshtein_distance "".data "test".data = 4 := by decide
example : levenshtein_distance "test".data "".data = 4 := by decide
example : similarity_score "same".data "same".data = 1 := by
  have h : levenshtein_distance "same".data "same".data = 0 := by decide
  have hb : byteLen "same".data = 4 := by decide
  simp [similarity_score, h, hb]

example : is_similar "hello".data "hallo".data (8/10) = true := by
  have h : levenshtein_distance "hello".data "hallo".data = 1 := by decide
  have hb : byteLen "hello".data = 5 := by decide
  have hb2 : byteLen "hallo".data = 5 := by decide
  simp [is_similar, similarity_score, h, hb, hb2]
  norm_num

example : is_similar "hello".data "world".data (8/10) = false := by
  have h : levenshtein_distance "hello".data "world".data = 4 := by decide
  have hb : byteLen "hello".data = 5 := by decide
  have hb2 : byteLen "world".data = 5 := by decide
  simp [is_similar, similarity_score, h, hb, hb2]
  norm_num
